import Mathlib

/-!
Verification of the CodeForces contest-tracking cog (`src/ext/codeforces.py`).

The cog keeps four lock-protected buckets: `upcoming`, `ongoing` and
`finished-pending` lists of contests plus a campus → user-list leaderboard
mapping.  Five periodic loops mutate them: the hourly Poller
(`update_upcoming_contests`), the 30-second Lifecycle Mover
(`check_ongoing_contests`), the 5-minute Ongoing Refresher
(`refresh_ongoing_contests`), the 10-minute Rating-Publication Watcher
(`update_campus_leaderboards`) and the triggered Leaderboard Builder
(`_refresh_campus_leaderboards`).

The embedding below is a direct translation: each tick becomes a pure state
transformer parametrised by the wall-clock time and by the outcome of the
network fetches performed during that tick (a fetch that raises is an
`Except.error`).  Timestamps are integers (epoch seconds); Python's
`x or 0` on an optional timestamp is `Option.getD 0`; `discord.utils.get(l, id=i)`
is `List.find?` on the id.
-/

/-- Contest type enumeration (`ContestType` in the source). -/
inductive ContestType where
  | CF
  | IOI
  | ICPC
deriving DecidableEq

/-- Contest lifecycle phase enumeration (`ContestPhase` in the source). -/
inductive ContestPhase where
  | BEFORE
  | CODING
  | PENDING_SYSTEM_TEST
  | SYSTEM_TEST
  | FINISHED
deriving DecidableEq

/-- A contest record (`CFContest` in the source, a frozen attrs class with
structural equality).  `difficulty` is `Literal[1..5]` in the source, embedded
as an integer. -/
structure CFContest where
  id : Int
  name : String
  type : ContestType
  phase : ContestPhase
  frozen : Bool
  durationSeconds : Int
  freezeDurationSeconds : Option Int := none
  startTimeSeconds : Option Int := none
  relativeTimeSeconds : Option Int := none
  preparedBy : Option String := none
  websiteUrl : Option String := none
  description : Option String := none
  difficulty : Option Nat := none
  kind : Option String := none
  icpcRegion : Option String := none
  country : Option String := none
  city : Option String := none
  season : Option String := none
deriving DecidableEq

/-- A rated-user record (`CFUser` in the source, a frozen attrs class with
structural equality). -/
structure CFUser where
  handle : String
  contribution : Int
  rank : String
  rating : Int
  maxRank : String
  maxRating : Int
  lastOnlineTimeSeconds : Int
  registrationTimeSeconds : Int
  friendOfCount : Int
  avatar : String
  titlePhoto : String
  email : Option String := none
  vkId : Option Int := none
  openId : Option String := none
  firstName : Option String := none
  lastName : Option String := none
  country : Option String := none
  city : Option String := none
  organization : Option String := none
deriving DecidableEq

/-- Campus labels are an enumeration imported from configuration
(`src.utils.constants.Campus`, a string enum whose members are not in the
repository's files); embedded as strings. -/
abbrev Campus := String

/-- The shared bucket state of `CodeForcesCog`, guarded by its single lock.
The defaultdict leaderboard mapping is an association list in insertion
order. -/
structure CogState where
  upcoming : List CFContest
  ongoing : List CFContest
  finishedPending : List CFContest
  leaderboards : List (Campus × List CFUser)
deriving DecidableEq

/-- The empty bucket state the cog starts with. -/
def emptyState : CogState := ⟨[], [], [], []⟩

/-- 7 days in seconds (`7 * 24 * 3600`, the `max_age` retention window). -/
def SEVEN_DAYS : Int := 7 * 24 * 3600

/-- 180 days in seconds (`180 * 24 * 3600`, the user-activity window). -/
def ONE_EIGHTY_DAYS : Int := 180 * 24 * 3600

/-- `discord.utils.get(l, id=i) is not None`: some element of `l` has id `i`. -/
def hasId (l : List CFContest) (i : Int) : Bool :=
  (l.find? (fun c => c.id == i)).isSome

/-- The ids of a contest list. -/
def idsOf (l : List CFContest) : List Int := l.map (fun c => c.id)

/-- How many entries of `l` carry id `i`. -/
def countById (l : List CFContest) (i : Int) : Nat :=
  (l.filter (fun c => c.id == i)).length

/-- The Poller's `upcoming` classification:
`[c for c in contests if c.phase == BEFORE and (c.startTimeSeconds or 0) > now]`. -/
def pollerUpcoming (contests : List CFContest) (now : Int) : List CFContest :=
  contests.filter (fun c => c.phase == .BEFORE && c.startTimeSeconds.getD 0 > now)

/-- The Poller's `ongoing` classification: phase `CODING`, or phase in
`{PENDING_SYSTEM_TEST, SYSTEM_TEST}` with strictly less than 7 days elapsed
since start. -/
def pollerOngoing (contests : List CFContest) (now : Int) : List CFContest :=
  contests.filter (fun c =>
    c.phase == .CODING
      || ((c.phase == .PENDING_SYSTEM_TEST || c.phase == .SYSTEM_TEST)
            && now - c.startTimeSeconds.getD 0 < SEVEN_DAYS))

/-- One Poller tick (`update_upcoming_contests`) given the fetched contest
list: replaces `upcoming`, additively merges the ongoing classification into
`ongoing`, skipping ids already present. -/
def update_upcoming_contests (contests : List CFContest) (now : Int) (s : CogState) : CogState :=
  { s with
    upcoming := pollerUpcoming contests now
    ongoing := s.ongoing
      ++ (pollerOngoing contests now).filter (fun i => !(hasId s.ongoing i.id)) }

/-- A Poller tick whose contest-list fetch may raise: on `Except.error` the
body never runs and the state is untouched. -/
def pollerTickE (fetched : Except Unit (List CFContest)) (now : Int) (s : CogState) : CogState :=
  match fetched with
  | .error _ => s
  | .ok contests => update_upcoming_contests contests now s

/-- One Lifecycle Mover tick (`check_ongoing_contests`): contests of
`upcoming` whose start time has elapsed move to `ongoing` (skipping ids
already present there) and are removed from `upcoming` by id. -/
def check_ongoing_contests (now : Int) (s : CogState) : CogState :=
  let toMove := s.upcoming.filter (fun c => c.startTimeSeconds.getD 0 ≤ now)
  { s with
    ongoing := s.ongoing ++ toMove.filter (fun c => !(hasId s.ongoing c.id))
    upcoming := s.upcoming.filter (fun c => !(hasId toMove c.id)) }

/-- Step 1 of the Ongoing Refresher, performed under the lock before any
fetch: evict from `ongoing` every contest sharing an id with a stale entry
(strictly older than 7 days past its start). -/
def refreshStep1 (now : Int) (s : CogState) : CogState :=
  let stale := s.ongoing.filter (fun c => now - c.startTimeSeconds.getD 0 > SEVEN_DAYS)
  { s with ongoing := s.ongoing.filter (fun c => !(hasId stale c.id)) }

/-- Replace the first entry of `l` whose id equals `u.id` with `u`
(the refresher's indexed in-place assignment with `break`). -/
def replaceFirstById (l : List CFContest) (u : CFContest) : List CFContest :=
  match l with
  | [] => []
  | c :: rest => if c.id == u.id then u :: rest else c :: replaceFirstById rest u

/-- Processing one element of the refresher's `updated_contests` list:
`None` is skipped; a `FINISHED` update is removed from `ongoing` by id and
appended to `finishedPending` unless that id is already present; any other
update replaces the first matching `ongoing` entry in place. -/
def applyUpdate (s : CogState) (u : Option CFContest) : CogState :=
  match u with
  | none => s
  | some updated =>
    if updated.phase == .FINISHED then
      { s with
        ongoing := s.ongoing.filter (fun c => c.id != updated.id)
        finishedPending :=
          if hasId s.finishedPending updated.id then s.finishedPending
          else s.finishedPending ++ [updated] }
    else
      { s with ongoing := replaceFirstById s.ongoing updated }

/-- Step 3 of the Ongoing Refresher: fold the per-contest fetch results over
the state, in fetch order. -/
def refreshStep3 (updates : List (Option CFContest)) (s : CogState) : CogState :=
  updates.foldl applyUpdate s

/-- One full Ongoing Refresher tick (`refresh_ongoing_contests`) in which
every per-contest fetch returns (possibly with "not found" = `none`):
evict stale entries, snapshot, fetch each snapshotted id, apply results. -/
def refresh_ongoing_contests (fetch : Int → Option CFContest) (now : Int) (s : CogState) :
    CogState :=
  let s1 := refreshStep1 now s
  refreshStep3 (s1.ongoing.map (fun c => fetch c.id)) s1

/-- An Ongoing Refresher tick whose per-contest fetches may raise: if any
fetch of the snapshot raises, the `asyncio.gather` propagates and the tick
aborts after step 1's eviction. -/
def refreshTickE (fetch : Int → Except Unit (Option CFContest)) (now : Int) (s : CogState) :
    CogState :=
  let s1 := refreshStep1 now s
  if s1.ongoing.all (fun c => (fetch c.id).isOk) then
    refreshStep3 (s1.ongoing.map (fun c => ((fetch c.id).toOption).getD none)) s1
  else s1

/-- The JSON body of `contest.ratingChanges`: `result` is `none` when the
key is missing, otherwise the list of rating-change entries (only emptiness
is ever inspected, so entries are abstracted to their ids). -/
structure RatingChangesResponse where
  result : Option (List Int)
deriving DecidableEq

/-- `_rating_published`: `False` when `"result" not in data or not data["result"]`,
`True` otherwise. -/
def ratingPublished (r : RatingChangesResponse) : Bool :=
  match r.result with
  | none => false
  | some l => !l.isEmpty

/-- Case-insensitive organization matching (`org_id.casefold() == user.organization.casefold()`,
embedded with `String.toLower`), guarded by the source's truthiness test on
`user.organization` (absent or empty string never matches): the first campus,
in configured table order, with a matching organization name. -/
def firstMatchCampus (orgs : List (Campus × List String)) (u : CFUser) : Option Campus :=
  match u.organization with
  | none => none
  | some o =>
    if o = "" then none
    else (orgs.find? (fun p => p.2.any (fun oid => oid.toLower == o.toLower))).map
      (fun p => p.1)

/-- Append user `u` to campus `camp`'s list, creating the entry at the end on
first use (the source's `defaultdict(list)` in insertion order). -/
def addToCampus (m : List (Campus × List CFUser)) (camp : Campus) (u : CFUser) :
    List (Campus × List CFUser) :=
  match m with
  | [] => [(camp, [u])]
  | (c, l) :: rest =>
    if c = camp then (c, l ++ [u]) :: rest else (c, l) :: addToCampus rest camp u

/-- The builder's assignment pass: drop users last online strictly before the
cutoff, assign each retained user to its first matching campus, keep input
order inside each campus list. -/
def assignUsers (orgs : List (Campus × List String)) (cutoff : Int) (users : List CFUser) :
    List (Campus × List CFUser) :=
  users.foldl
    (fun m u =>
      if u.lastOnlineTimeSeconds < cutoff then m
      else
        match firstMatchCampus orgs u with
        | none => m
        | some camp => addToCampus m camp u)
    []

/-- Stable insertion into a rating-descending list: an incoming element goes
before the first strictly lower-rated entry and before no equal-rated entry
coming later in input order. -/
def insertRatingDesc (u : CFUser) (l : List CFUser) : List CFUser :=
  match l with
  | [] => [u]
  | v :: rest => if v.rating ≤ u.rating then u :: v :: rest else v :: insertRatingDesc u rest

/-- `list.sort(key=lambda u: u.rating, reverse=True)`: Python's sort is
stable also with `reverse=True`, so it is extensionally the stable
rating-descending insertion sort. -/
def sortRatingDesc (l : List CFUser) : List CFUser := l.foldr insertRatingDesc []

/-- The Leaderboard Builder's pure core: assignment pass followed by the
per-campus stable descending sort. -/
def buildLeaderboards (orgs : List (Campus × List String)) (cutoff : Int)
    (users : List CFUser) : List (Campus × List CFUser) :=
  (assignUsers orgs cutoff users).map (fun p => (p.1, sortRatingDesc p.2))

/-- `_refresh_campus_leaderboards` given the fetched user list: the cutoff is
`now - 180 days` and the whole mapping is replaced. -/
def refreshCampusLeaderboards (orgs : List (Campus × List String)) (now : Int)
    (users : List CFUser) : List (Campus × List CFUser) :=
  buildLeaderboards orgs (now - ONE_EIGHTY_DAYS) users

/-- The campus list a mapping holds for `c` (`[]` when absent, as for a
`defaultdict(list)` read and for the paginator's `.get(campus, [])`). -/
def lookupCampus (m : List (Campus × List CFUser)) (c : Campus) : List CFUser :=
  ((m.find? (fun p => p.1 == c)).map (fun p => p.2)).getD []

/-- One Rating-Publication Watcher tick (`update_campus_leaderboards`) given
the rating-changes response for each contest id and the outcome of the
user-list fetch the rebuild would perform: contests whose response is
published form `to_remove`; if empty, nothing happens; otherwise the rebuild
runs and, only if its fetch returned, the published contests are removed from
`finishedPending` and the leaderboards are replaced. -/
def update_campus_leaderboards (resp : Int → RatingChangesResponse)
    (userFetch : Except Unit (List CFUser)) (orgs : List (Campus × List String))
    (now : Int) (s : CogState) : CogState :=
  let toRemove := s.finishedPending.filter (fun c => ratingPublished (resp c.id))
  if toRemove.isEmpty then s
  else
    match userFetch with
    | .error _ => s
    | .ok users =>
      { s with
        leaderboards := refreshCampusLeaderboards orgs now users
        finishedPending := s.finishedPending.filter (fun c => !(toRemove.contains c)) }

/-- A Watcher tick whose per-contest rating-changes fetches may raise: if any
raises, the `asyncio.gather` propagates and the tick aborts with no mutation. -/
def watcherTickE (respE : Int → Except Unit RatingChangesResponse)
    (userFetch : Except Unit (List CFUser)) (orgs : List (Campus × List String))
    (now : Int) (s : CogState) : CogState :=
  if s.finishedPending.all (fun c => (respE c.id).isOk) then
    update_campus_leaderboards (fun i => ((respE i).toOption).getD ⟨none⟩) userFetch orgs now s
  else s

/-- One tick of any of the four periodic loops, with its external inputs. -/
inductive TickInput where
  | poller (contests : List CFContest) (now : Int)
  | mover (now : Int)
  | refresher (fetch : Int → Option CFContest) (now : Int)
  | watcher (resp : Int → RatingChangesResponse) (userFetch : Except Unit (List CFUser))
      (orgs : List (Campus × List String)) (now : Int)

/-- Apply one tick to the state. -/
def applyTick (t : TickInput) (s : CogState) : CogState :=
  match t with
  | .poller contests now => update_upcoming_contests contests now s
  | .mover now => check_ongoing_contests now s
  | .refresher fetch now => refresh_ongoing_contests fetch now s
  | .watcher resp userFetch orgs now => update_campus_leaderboards resp userFetch orgs now s

/-- Run a sequence of ticks from the empty start state. -/
def runTicks (ts : List TickInput) : CogState :=
  ts.foldl (fun s t => applyTick t s) emptyState

/-- Each contest identifier is in at most one of the three contest buckets. -/
def DisjointBuckets (s : CogState) : Prop :=
  (∀ i ∈ idsOf s.upcoming, i ∉ idsOf s.ongoing ∧ i ∉ idsOf s.finishedPending)
    ∧ ∀ i ∈ idsOf s.ongoing, i ∉ idsOf s.finishedPending

instance (s : CogState) : Decidable (DisjointBuckets s) := by
  unfold DisjointBuckets; infer_instance

/-- A minimal contest record, used for concrete instances. -/
def mkContest (i : Int) (phase : ContestPhase) (start : Option Int) : CFContest :=
  { id := i, name := "", type := .CF, phase := phase, frozen := false,
    durationSeconds := 0, startTimeSeconds := start }

/-- A minimal user record, used for concrete instances. -/
def mkUser (handle : String) (rating : Int) (lastOnline : Int) (org : Option String) : CFUser :=
  { handle := handle, contribution := 0, rank := "", rating := rating, maxRank := "",
    maxRating := rating, lastOnlineTimeSeconds := lastOnline, registrationTimeSeconds := 0,
    friendOfCount := 0, avatar := "", titlePhoto := "", organization := org }

/-! ## Basic lemmas about ids and the per-update step -/

theorem mem_idsOf {l : List CFContest} {i : Int} : i ∈ idsOf l ↔ ∃ c ∈ l, c.id = i := by
  simp [idsOf, List.mem_map]

theorem hasId_iff {l : List CFContest} {i : Int} : hasId l i = true ↔ i ∈ idsOf l := by
  simp only [hasId, List.find?_isSome, mem_idsOf, beq_iff_eq]

theorem hasId_eq_false {l : List CFContest} {i : Int} :
    hasId l i = false ↔ i ∉ idsOf l := by
  rw [← Bool.not_eq_true, not_iff_not]
  exact hasId_iff

theorem idsOf_append (a b : List CFContest) : idsOf (a ++ b) = idsOf a ++ idsOf b := by
  simp [idsOf]

theorem idsOf_sublist_of_filter (p : CFContest → Bool) (l : List CFContest) :
    (idsOf (l.filter p)).Sublist (idsOf l) := by
  unfold idsOf
  exact (List.filter_sublist l).map (fun c => c.id)

theorem idsOf_replaceFirstById (l : List CFContest) (u : CFContest) :
    idsOf (replaceFirstById l u) = idsOf l := by
  induction l with
  | nil => rfl
  | cons c rest ih =>
    by_cases h : c.id = u.id
    · simp [replaceFirstById, h, idsOf]
    · simp only [replaceFirstById, beq_iff_eq, h, if_false]
      simpa [idsOf] using ih

theorem mem_replaceFirstById {l : List CFContest} {u x : CFContest}
    (hx : x ∈ replaceFirstById l u) : x ∈ l ∨ x = u := by
  induction l with
  | nil => simp [replaceFirstById] at hx
  | cons c rest ih =>
    by_cases h : c.id = u.id
    · simp only [replaceFirstById, beq_iff_eq, h, if_true, List.mem_cons] at hx
      rcases hx with rfl | hx
      · exact Or.inr rfl
      · exact Or.inl (List.mem_cons_of_mem _ hx)
    · simp only [replaceFirstById, beq_iff_eq, h, if_false, List.mem_cons] at hx
      rcases hx with rfl | hx
      · exact Or.inl (List.mem_cons_self _ _)
      · rcases ih hx with h' | h'
        · exact Or.inl (List.mem_cons_of_mem _ h')
        · exact Or.inr h'

theorem applyUpdate_upcoming (s : CogState) (u : Option CFContest) :
    (applyUpdate s u).upcoming = s.upcoming := by
  cases u with
  | none => rfl
  | some x =>
    by_cases h : x.phase == ContestPhase.FINISHED <;> simp [applyUpdate, h]

theorem applyUpdate_leaderboards (s : CogState) (u : Option CFContest) :
    (applyUpdate s u).leaderboards = s.leaderboards := by
  cases u with
  | none => rfl
  | some x =>
    by_cases h : x.phase == ContestPhase.FINISHED <;> simp [applyUpdate, h]

theorem applyUpdate_ongoing_ids_subset (s : CogState) (u : Option CFContest) :
    ∀ i ∈ idsOf (applyUpdate s u).ongoing, i ∈ idsOf s.ongoing := by
  intro i hi
  cases u with
  | none => exact hi
  | some x =>
    by_cases h : x.phase == ContestPhase.FINISHED
    · simp only [applyUpdate, h, if_true] at hi
      exact (idsOf_sublist_of_filter _ _).mem hi
    · rw [show applyUpdate s (some x) = { s with ongoing := replaceFirstById s.ongoing x } by
        simp [applyUpdate, h]] at hi
      rwa [idsOf_replaceFirstById] at hi

theorem applyUpdate_finishedPending_ids_mono (s : CogState) (u : Option CFContest) :
    ∀ i ∈ idsOf s.finishedPending, i ∈ idsOf (applyUpdate s u).finishedPending := by
  intro i hi
  cases u with
  | none => exact hi
  | some x =>
    by_cases h : x.phase == ContestPhase.FINISHED
    · simp only [applyUpdate, h, if_true]
      by_cases hp : hasId s.finishedPending x.id
      · simpa [hp] using hi
      · rw [show (if hasId s.finishedPending x.id = true then s.finishedPending
            else s.finishedPending ++ [x]) = s.finishedPending ++ [x] by simp [hp]]
        rw [idsOf_append]
        exact List.mem_append_left _ hi
    · simpa [applyUpdate, h] using hi

/-! ## The Lifecycle Mover: idempotence and duplicate-freedom (C4) -/

theorem hasId_nil (i : Int) : hasId [] i = false := rfl

theorem check_ongoing_of_none_due (now : Int) (s : CogState)
    (h : s.upcoming.filter (fun c => c.startTimeSeconds.getD 0 ≤ now) = []) :
    check_ongoing_contests now s = s := by
  unfold check_ongoing_contests
  rw [h]
  simp [hasId]

theorem check_ongoing_no_due_after (now : Int) (s : CogState) :
    (check_ongoing_contests now s).upcoming.filter
      (fun c => c.startTimeSeconds.getD 0 ≤ now) = [] := by
  rw [List.filter_eq_nil_iff]
  intro c hc
  simp only [check_ongoing_contests] at hc
  rw [List.mem_filter] at hc
  obtain ⟨hmem, hnotid⟩ := hc
  rw [Bool.not_eq_eq_eq_not, Bool.not_true] at hnotid
  intro hle
  have hin : c ∈ s.upcoming.filter (fun c => c.startTimeSeconds.getD 0 ≤ now) :=
    List.mem_filter.mpr ⟨hmem, hle⟩
  have : hasId (s.upcoming.filter fun c => c.startTimeSeconds.getD 0 ≤ now) c.id = true :=
    hasId_iff.mpr (mem_idsOf.mpr ⟨c, hin, rfl⟩)
  rw [hnotid] at this
  exact Bool.false_ne_true this

/-- C4: the Lifecycle Mover tick is idempotent — applying
`check_ongoing_contests` twice at the same time instant yields exactly the
state of one application — and, on states whose buckets carry no duplicate
ids, one application leaves both `upcoming` and `ongoing` free of duplicate
ids. -/
theorem mover_idempotent_no_duplicates (now : Int) (s : CogState) :
    check_ongoing_contests now (check_ongoing_contests now s) = check_ongoing_contests now s
    ∧ ((idsOf s.upcoming).Nodup → (idsOf s.ongoing).Nodup →
        (idsOf (check_ongoing_contests now s).upcoming).Nodup
          ∧ (idsOf (check_ongoing_contests now s).ongoing).Nodup) := by
  constructor
  · exact check_ongoing_of_none_due now _ (check_ongoing_no_due_after now s)
  · intro hup hon
    constructor
    · exact (idsOf_sublist_of_filter _ _).nodup hup
    · show (idsOf (s.ongoing ++ _)).Nodup
      rw [idsOf_append, List.nodup_append]
      refine ⟨hon, ?_, ?_⟩
      · exact ((idsOf_sublist_of_filter _ _).trans (idsOf_sublist_of_filter _ _)).nodup hup
      · intro i hi hadd
        obtain ⟨a, ha, rfl⟩ := mem_idsOf.mp hadd
        obtain ⟨_, hskip⟩ := List.mem_filter.mp ha
        rw [Bool.not_eq_eq_eq_not, Bool.not_true, hasId_eq_false] at hskip
        exact hskip hi

/-- Witness for C4 at a concrete state: one due upcoming contest. -/
theorem mover_idempotent_no_duplicates_witness :
    check_ongoing_contests 100
        (check_ongoing_contests 100 ⟨[mkContest 1 .BEFORE (some 50)], [], [], []⟩)
      = check_ongoing_contests 100 ⟨[mkContest 1 .BEFORE (some 50)], [], [], []⟩
    ∧ (idsOf (check_ongoing_contests 100
        ⟨[mkContest 1 .BEFORE (some 50)], [], [], []⟩).ongoing).Nodup :=
  ⟨(mover_idempotent_no_duplicates 100 _).1,
    ((mover_idempotent_no_duplicates 100 _).2 (by decide) (by decide)).2⟩

/-! ## The Contest Poller's classification (C6) -/

/-- C6: the Poller classifies a fetched contest as ongoing iff its phase is
`CODING`, or its phase is `PENDING_SYSTEM_TEST`/`SYSTEM_TEST` and strictly
less than 7 days have elapsed since its start; `upcoming` is replaced with
exactly the fetched contests whose phase is `BEFORE` and whose start time is
strictly in the future; in particular a `SYSTEM_TEST` contest started 6 days
ago is classified ongoing and one started 8 days ago is not. -/
theorem poller_classification (contests : List CFContest) (now : Int) (c : CFContest)
    (s : CogState) :
    (c ∈ pollerOngoing contests now ↔
      c ∈ contests ∧ (c.phase = .CODING ∨
        ((c.phase = .PENDING_SYSTEM_TEST ∨ c.phase = .SYSTEM_TEST)
          ∧ now - c.startTimeSeconds.getD 0 < SEVEN_DAYS)))
    ∧ ((update_upcoming_contests contests now s).upcoming = pollerUpcoming contests now)
    ∧ (c ∈ pollerUpcoming contests now ↔
        c ∈ contests ∧ c.phase = .BEFORE ∧ now < c.startTimeSeconds.getD 0)
    ∧ (mkContest 1 .SYSTEM_TEST (some (1000000 - 6 * 86400))
        ∈ pollerOngoing [mkContest 1 .SYSTEM_TEST (some (1000000 - 6 * 86400))] 1000000)
    ∧ (mkContest 2 .SYSTEM_TEST (some (1000000 - 8 * 86400))
        ∉ pollerOngoing [mkContest 2 .SYSTEM_TEST (some (1000000 - 8 * 86400))] 1000000) := by
  refine ⟨?_, rfl, ?_, by decide, by decide⟩
  · simp [pollerOngoing, List.mem_filter]
  · simp [pollerUpcoming, List.mem_filter, and_assoc]

/-- Witness for C6: a coding-phase contest is classified ongoing. -/
theorem poller_classification_witness :
    mkContest 3 .CODING none ∈ pollerOngoing [mkContest 3 .CODING none] 0 :=
  (poller_classification [mkContest 3 .CODING none] 0 (mkContest 3 .CODING none)
      emptyState).1.mpr ⟨List.mem_singleton.mpr rfl, Or.inl rfl⟩

/-! ## The Rating-Publication Watcher (C8, C10) -/

/-- C8: a pending contest is deemed published iff its rating-changes response
carries a non-empty `result` list; if no pending contest is published the
Watcher tick mutates nothing — in particular a contest whose endpoint returns
an empty `result` list stays in `finishedPending` and triggers no rebuild. -/
theorem watcher_published_iff_nonempty (r : RatingChangesResponse)
    (resp : Int → RatingChangesResponse) (userFetch : Except Unit (List CFUser))
    (orgs : List (Campus × List String)) (now : Int) (s : CogState) :
    (ratingPublished r = true ↔ ∃ l, r.result = some l ∧ l ≠ [])
    ∧ ((∀ c ∈ s.finishedPending, ratingPublished (resp c.id) = false) →
        update_campus_leaderboards resp userFetch orgs now s = s) := by
  constructor
  · cases r with
    | mk result =>
      cases result with
      | none => simp [ratingPublished]
      | some l => simp [ratingPublished]
  · intro hnone
    unfold update_campus_leaderboards
    have hnil : s.finishedPending.filter (fun c => ratingPublished (resp c.id)) = [] := by
      rw [List.filter_eq_nil_iff]
      intro c hc
      simp [hnone c hc]
    simp [hnil]

/-- Witness for C8: a single pending contest whose endpoint reports
`result = []` is not published, stays pending, and no rebuild happens. -/
theorem watcher_published_iff_nonempty_witness :
    update_campus_leaderboards (fun _ => ⟨some []⟩) (Except.ok [])
        [] 0 ⟨[], [], [mkContest 9 .FINISHED none], []⟩
      = ⟨[], [], [mkContest 9 .FINISHED none], []⟩ :=
  (watcher_published_iff_nonempty ⟨some []⟩ (fun _ => ⟨some []⟩) (Except.ok []) [] 0
      ⟨[], [], [mkContest 9 .FINISHED none], []⟩).2 (fun c _ => by rfl)

/-- C10: the Watcher removes published contests from `finishedPending` only
after a completed rebuild — when the rebuild's user-list fetch raises, the
whole tick leaves the state unchanged, so every published contest is still
pending on the next tick. -/
theorem watcher_failed_rebuild_keeps_pending (resp : Int → RatingChangesResponse)
    (orgs : List (Campus × List String)) (now : Int) (s : CogState) :
    update_campus_leaderboards resp (Except.error ()) orgs now s = s
    ∧ ∀ c ∈ s.finishedPending, ratingPublished (resp c.id) = true →
        c ∈ (update_campus_leaderboards resp (Except.error ()) orgs now s).finishedPending := by
  have h : update_campus_leaderboards resp (Except.error ()) orgs now s = s := by
    unfold update_campus_leaderboards
    by_cases he : (s.finishedPending.filter (fun c => ratingPublished (resp c.id))).isEmpty
    · simp [he]
    · simp [he]
  exact ⟨h, fun c hc _ => by rw [h]; exact hc⟩

/-- Witness for C10: a published pending contest survives a tick whose
user-list fetch fails. -/
theorem watcher_failed_rebuild_keeps_pending_witness :
    mkContest 9 .FINISHED none ∈ (update_campus_leaderboards (fun _ => ⟨some [1]⟩)
      (Except.error ()) [] 0 ⟨[], [], [mkContest 9 .FINISHED none], []⟩).finishedPending :=
  (watcher_failed_rebuild_keeps_pending (fun _ => ⟨some [1]⟩) [] 0
      ⟨[], [], [mkContest 9 .FINISHED none], []⟩).2 (mkContest 9 .FINISHED none)
    (List.mem_singleton.mpr rfl) rfl

/-! ## The Ongoing Refresher's in-place update (C9) -/

theorem replaceFirstById_no_match {l : List CFContest} {u : CFContest}
    (h : ∀ a ∈ l, a.id ≠ u.id) : replaceFirstById l u = l := by
  induction l with
  | nil => rfl
  | cons c rest ih =>
    have hc : c.id ≠ u.id := h c (List.mem_cons_self _ _)
    simp only [replaceFirstById, beq_iff_eq, hc, if_false]
    rw [ih (fun a ha => h a (List.mem_cons_of_mem _ ha))]

theorem replaceFirstById_append_match {l1 l2 : List CFContest} {c u : CFContest}
    (h1 : ∀ a ∈ l1, a.id ≠ u.id) (hc : c.id = u.id) :
    replaceFirstById (l1 ++ c :: l2) u = l1 ++ u :: l2 := by
  induction l1 with
  | nil => simp [replaceFirstById, hc]
  | cons a rest ih =>
    have ha : a.id ≠ u.id := h1 a (List.mem_cons_self _ _)
    simp only [List.cons_append, replaceFirstById, beq_iff_eq, ha, if_false, List.append_eq]
    rw [ih (fun b hb => h1 b (List.mem_cons_of_mem _ hb))]

/-- C9: a per-contest fetch returning "not found" yields no update at all for
that contest; a refreshed contest whose phase is not `FINISHED` replaces
exactly the first matching `ongoing` entry, in place — entries before it and
after it are untouched, the other buckets are untouched, and an update
matching no entry changes nothing. -/
theorem refresher_inplace_update (s : CogState) (u c : CFContest)
    (l1 l2 : List CFContest) :
    (applyUpdate s none = s)
    ∧ (u.phase ≠ .FINISHED →
        applyUpdate s (some u) = { s with ongoing := replaceFirstById s.ongoing u })
    ∧ ((∀ a ∈ l1, a.id ≠ u.id) → c.id = u.id →
        replaceFirstById (l1 ++ c :: l2) u = l1 ++ u :: l2)
    ∧ ((∀ a ∈ l1, a.id ≠ u.id) → replaceFirstById l1 u = l1) := by
  refine ⟨rfl, ?_, ?_, ?_⟩
  · intro hnf
    have hb : (u.phase == ContestPhase.FINISHED) = false := by
      simpa using hnf
    simp [applyUpdate, hb]
  · exact fun h1 hc => replaceFirstById_append_match h1 hc
  · exact fun h => replaceFirstById_no_match h

/-- Witness for C9 at concrete lists: the middle entry with the matching id
is replaced, its neighbours and position are preserved. -/
theorem refresher_inplace_update_witness :
    replaceFirstById [mkContest 1 .CODING none, mkContest 2 .CODING none,
        mkContest 3 .CODING none] (mkContest 2 .SYSTEM_TEST none)
      = [mkContest 1 .CODING none, mkContest 2 .SYSTEM_TEST none, mkContest 3 .CODING none] :=
  (refresher_inplace_update emptyState (mkContest 2 .SYSTEM_TEST none)
      (mkContest 2 .CODING none) [mkContest 1 .CODING none]
      [mkContest 3 .CODING none]).2.2.1 (by decide) rfl

/-! ## The Ongoing Refresher's finished-contest transition (C5) -/

theorem countById_append (a b : List CFContest) (j : Int) :
    countById (a ++ b) j = countById a j + countById b j := by
  simp [countById, List.filter_append]

theorem countById_eq_zero_iff {l : List CFContest} {j : Int} :
    countById l j = 0 ↔ j ∉ idsOf l := by
  rw [countById, List.length_eq_zero, List.filter_eq_nil_iff]
  simp [mem_idsOf]

theorem applyUpdate_fp_count (s : CogState) (u : Option CFContest) (j : Int) :
    countById (applyUpdate s u).finishedPending j = countById s.finishedPending j
    ∨ (countById s.finishedPending j = 0
        ∧ countById (applyUpdate s u).finishedPending j = 1) := by
  cases u with
  | none => exact Or.inl rfl
  | some x =>
    by_cases hf : x.phase == ContestPhase.FINISHED
    · by_cases hp : hasId s.finishedPending x.id
      · left; simp [applyUpdate, hf, hp]
      · have hniff : x.id ∉ idsOf s.finishedPending := by
          rw [← hasId_eq_false]
          simpa using hp
        by_cases hj : x.id = j
        · right
          subst hj
          have h0 : countById s.finishedPending x.id = 0 := countById_eq_zero_iff.mpr hniff
          refine ⟨h0, ?_⟩
          simp only [applyUpdate, hf, if_true]
          rw [if_neg hp, countById_append, h0]
          simp [countById]
        · left
          simp only [applyUpdate, hf, if_true]
          rw [if_neg hp, countById_append]
          have hz : countById [x] j = 0 := by simp [countById, hj]
          rw [hz, Nat.add_zero]
    · left; simp [applyUpdate, hf]

theorem applyUpdate_fp_count_max (s : CogState) (u : Option CFContest) (j : Int) :
    max (countById (applyUpdate s u).finishedPending j) 1
      = max (countById s.finishedPending j) 1 := by
  rcases applyUpdate_fp_count s u j with heq | ⟨h0, h1⟩
  · rw [heq]
  · rw [h0, h1]; decide

theorem refreshStep3_fp_count_stable (updates : List (Option CFContest)) :
    ∀ s : CogState, ∀ j : Int, countById s.finishedPending j ≠ 0 →
      countById (refreshStep3 updates s).finishedPending j = countById s.finishedPending j := by
  induction updates with
  | nil => intro s j _; rfl
  | cons u rest ih =>
    intro s j h
    rcases applyUpdate_fp_count s u j with heq | ⟨h0, _⟩
    · show countById (refreshStep3 rest (applyUpdate s u)).finishedPending j = _
      rw [ih (applyUpdate s u) j (by rw [heq]; exact h), heq]
    · exact absurd h0 h

theorem refreshStep3_ongoing_notin (updates : List (Option CFContest)) :
    ∀ s : CogState, ∀ j : Int, j ∉ idsOf s.ongoing →
      j ∉ idsOf (refreshStep3 updates s).ongoing := by
  induction updates with
  | nil => intro s j h; exact h
  | cons u rest ih =>
    intro s j h
    exact ih (applyUpdate s u) j (fun hin => h (applyUpdate_ongoing_ids_subset s u j hin))

theorem refreshStep3_fp_mem (updates : List (Option CFContest)) :
    ∀ s : CogState, ∀ j : Int, j ∈ idsOf s.finishedPending →
      j ∈ idsOf (refreshStep3 updates s).finishedPending := by
  induction updates with
  | nil => intro s j h; exact h
  | cons u rest ih =>
    intro s j h
    exact ih (applyUpdate s u) j (applyUpdate_finishedPending_ids_mono s u j h)

theorem applyUpdate_finished_not_ongoing {x : CFContest} (s : CogState)
    (hfin : x.phase = .FINISHED) : x.id ∉ idsOf (applyUpdate s (some x)).ongoing := by
  have hb : (x.phase == ContestPhase.FINISHED) = true := by simp [hfin]
  simp only [applyUpdate, hb, if_true]
  intro hmem
  obtain ⟨c, hc, hcid⟩ := mem_idsOf.mp hmem
  obtain ⟨_, hne⟩ := List.mem_filter.mp hc
  simp only [bne_iff_ne, ne_eq] at hne
  exact hne hcid

theorem applyUpdate_finished_fp_mem {x : CFContest} (s : CogState)
    (hfin : x.phase = .FINISHED) : x.id ∈ idsOf (applyUpdate s (some x)).finishedPending := by
  have hb : (x.phase == ContestPhase.FINISHED) = true := by simp [hfin]
  simp only [applyUpdate, hb, if_true]
  by_cases hp : hasId s.finishedPending x.id
  · simpa [hp] using hasId_iff.mp hp
  · have : (if hasId s.finishedPending x.id = true then s.finishedPending
        else s.finishedPending ++ [x]) = s.finishedPending ++ [x] := by simp [hp]
    rw [this, idsOf_append]
    exact List.mem_append_right _ (by simp [idsOf])

theorem applyUpdate_finished_fp_count {x : CFContest} (s : CogState)
    (hfin : x.phase = .FINISHED) :
    countById (applyUpdate s (some x)).finishedPending x.id
      = max (countById s.finishedPending x.id) 1 := by
  have hb : (x.phase == ContestPhase.FINISHED) = true := by simp [hfin]
  simp only [applyUpdate, hb, if_true]
  by_cases hp : hasId s.finishedPending x.id
  · have hpos : countById s.finishedPending x.id ≠ 0 := by
      intro h0
      exact absurd (hasId_iff.mp hp) (countById_eq_zero_iff.mp h0)
    simp only [hp, if_true]
    exact (Nat.max_eq_left (Nat.one_le_iff_ne_zero.mpr hpos)).symm
  · have h0 : countById s.finishedPending x.id = 0 := by
      rw [countById_eq_zero_iff, ← hasId_eq_false]
      simpa using hp
    rw [if_neg hp, countById_append, h0]
    simp [countById]

/-- C5: every refreshed contest reported `FINISHED` during an Ongoing
Refresher tick is absent from `ongoing` and present (by id) in
`finishedPending` after step 3, and if its id was already pending no
duplicate entry is inserted: the number of pending entries with that id is
the old count, or 1 if it was 0. -/
theorem refresher_finished_moves (updates : List (Option CFContest)) (s : CogState)
    (x : CFContest) (hmem : some x ∈ updates) (hfin : x.phase = .FINISHED) :
    x.id ∉ idsOf (refreshStep3 updates s).ongoing
    ∧ x.id ∈ idsOf (refreshStep3 updates s).finishedPending
    ∧ countById (refreshStep3 updates s).finishedPending x.id
        = max (countById s.finishedPending x.id) 1 := by
  revert hmem
  induction updates generalizing s with
  | nil => intro hmem; simp at hmem
  | cons u rest ih =>
    intro hmem
    have hstep : refreshStep3 (u :: rest) s = refreshStep3 rest (applyUpdate s u) := rfl
    rcases List.mem_cons.mp hmem with heq | htail
    · cases heq
      have hno : x.id ∉ idsOf (applyUpdate s (some x)).ongoing :=
        applyUpdate_finished_not_ongoing s hfin
      have hfp : x.id ∈ idsOf (applyUpdate s (some x)).finishedPending :=
        applyUpdate_finished_fp_mem s hfin
      have hcnt := applyUpdate_finished_fp_count s hfin
      have hpos : countById (applyUpdate s (some x)).finishedPending x.id ≠ 0 := by
        rw [hcnt]
        exact Nat.ne_of_gt (lt_of_lt_of_le Nat.zero_lt_one (le_max_right _ _))
      rw [hstep]
      refine ⟨?_, ?_, ?_⟩
      · exact refreshStep3_ongoing_notin rest (applyUpdate s (some x)) x.id hno
      · exact refreshStep3_fp_mem rest (applyUpdate s (some x)) x.id hfp
      · rw [refreshStep3_fp_count_stable rest (applyUpdate s (some x)) x.id hpos, hcnt]
    · have hres := ih (applyUpdate s u) htail
      rw [hstep]
      refine ⟨hres.1, hres.2.1, ?_⟩
      rw [hres.2.2, applyUpdate_fp_count_max]

/-- Witness for C5: one ongoing contest refreshed as finished leaves
`ongoing` and enters `finishedPending` exactly once. -/
theorem refresher_finished_moves_witness :
    (mkContest 1 .FINISHED none).id ∉ idsOf (refreshStep3 [some (mkContest 1 .FINISHED none)]
        ⟨[], [mkContest 1 .CODING none], [], []⟩).ongoing
    ∧ (mkContest 1 .FINISHED none).id ∈ idsOf (refreshStep3 [some (mkContest 1 .FINISHED none)]
        ⟨[], [mkContest 1 .CODING none], [], []⟩).finishedPending
    ∧ countById (refreshStep3 [some (mkContest 1 .FINISHED none)]
        ⟨[], [mkContest 1 .CODING none], [], []⟩).finishedPending (mkContest 1 .FINISHED none).id
        = max (countById (CogState.mk [] [mkContest 1 .CODING none] [] []).finishedPending
            (mkContest 1 .FINISHED none).id) 1 :=
  refresher_finished_moves [some (mkContest 1 .FINISHED none)]
    ⟨[], [mkContest 1 .CODING none], [], []⟩ (mkContest 1 .FINISHED none)
    (List.mem_singleton.mpr rfl) rfl

/-! ## Failed fetches and state mutation (C2) -/

theorem watcher_userfetch_error (resp : Int → RatingChangesResponse)
    (orgs : List (Campus × List String)) (now : Int) (s : CogState) :
    update_campus_leaderboards resp (Except.error ()) orgs now s = s := by
  unfold update_campus_leaderboards
  by_cases he : (s.finishedPending.filter (fun c => ratingPublished (resp c.id))).isEmpty
  · simp [he]
  · simp [he]

/-- C2 (amended): a failed fetch leaves the bucket state unchanged for the
Poller tick and for the Watcher tick (whether the rating-changes fetches or
the rebuild's user-list fetch raise); the Ongoing Refresher, however, evicts
stale contests under the lock before fetching, so a failed per-contest fetch
leaves the state equal to the post-eviction step-1 state — which equals the
pre-tick state only when no ongoing contest was stale at tick start. -/
theorem failed_fetch_state_change (now : Int) (s : CogState)
    (respE : Int → Except Unit RatingChangesResponse)
    (userFetch : Except Unit (List CFUser)) (orgs : List (Campus × List String))
    (resp : Int → RatingChangesResponse) (fetchE : Int → Except Unit (Option CFContest)) :
    pollerTickE (Except.error ()) now s = s
    ∧ (s.finishedPending.all (fun c => (respE c.id).isOk) = false →
        watcherTickE respE userFetch orgs now s = s)
    ∧ update_campus_leaderboards resp (Except.error ()) orgs now s = s
    ∧ ((refreshStep1 now s).ongoing.all (fun c => (fetchE c.id).isOk) = false →
        refreshTickE fetchE now s = refreshStep1 now s)
    ∧ ((∀ c ∈ s.ongoing, now - c.startTimeSeconds.getD 0 ≤ SEVEN_DAYS) →
        refreshStep1 now s = s) := by
  refine ⟨rfl, ?_, watcher_userfetch_error resp orgs now s, ?_, ?_⟩
  · intro h
    simp [watcherTickE, h]
  · intro h
    simp [refreshTickE, h]
  · intro h
    have hstale : s.ongoing.filter
        (fun c => now - c.startTimeSeconds.getD 0 > SEVEN_DAYS) = [] := by
      rw [List.filter_eq_nil_iff]
      intro c hc
      simpa using not_lt_of_le (h c hc)
    unfold refreshStep1
    rw [hstale]
    simp [hasId]

/-- Witness for C2: with no stale contest, step 1 of the refresher is the
identity, so a failed fetch there leaves the state unchanged. -/
theorem failed_fetch_state_change_witness :
    refreshStep1 0 ⟨[], [mkContest 1 .CODING (some 0)], [], []⟩
      = ⟨[], [mkContest 1 .CODING (some 0)], [], []⟩ :=
  (failed_fetch_state_change 0 ⟨[], [mkContest 1 .CODING (some 0)], [], []⟩
      (fun _ => Except.ok ⟨none⟩) (Except.ok []) [] (fun _ => ⟨none⟩)
      (fun _ => Except.ok none)).2.2.2.2 (by decide)

/-- C2 counterexample: `ongoing` holds a stale contest (id 1, started two
weeks before `now`) and a fresh one (id 2, started at `now`).  Step 1 evicts
the stale contest, the snapshot `[id 2]` is non-empty, and its fetch raises —
the first conjunct is exactly `refreshTickE`'s success guard evaluating to
`false`, so the tick takes its failure branch — yet the post-tick state
differs from the pre-tick state: the step-1 eviction has already happened. -/
theorem failed_fetch_state_change_cex :
    (refreshStep1 (2 * SEVEN_DAYS)
        ⟨[], [mkContest 1 .CODING (some 0), mkContest 2 .CODING (some (2 * SEVEN_DAYS))],
          [], []⟩).ongoing.all
        (fun c => ((fun _ : Int => (Except.error () : Except Unit (Option CFContest)))
          c.id).isOk) = false
    ∧ refreshTickE (fun _ => Except.error ()) (2 * SEVEN_DAYS)
        ⟨[], [mkContest 1 .CODING (some 0), mkContest 2 .CODING (some (2 * SEVEN_DAYS))],
          [], []⟩
      ≠ ⟨[], [mkContest 1 .CODING (some 0), mkContest 2 .CODING (some (2 * SEVEN_DAYS))],
          [], []⟩ := by
  constructor
  · decide
  · decide

/-! ## The 7-day retention bound on `ongoing` (C1) -/

theorem refreshStep1_age_bound (now : Int) (s : CogState) :
    ∀ c ∈ (refreshStep1 now s).ongoing, now - c.startTimeSeconds.getD 0 ≤ SEVEN_DAYS := by
  intro c hc
  simp only [refreshStep1] at hc
  rw [List.mem_filter] at hc
  obtain ⟨hmem, hnot⟩ := hc
  rw [Bool.not_eq_eq_eq_not, Bool.not_true, hasId_eq_false] at hnot
  by_contra hgt
  push_neg at hgt
  have hcstale : c ∈ s.ongoing.filter
      (fun c => now - c.startTimeSeconds.getD 0 > SEVEN_DAYS) :=
    List.mem_filter.mpr ⟨hmem, by simpa using hgt⟩
  exact hnot (mem_idsOf.mpr ⟨c, hcstale, rfl⟩)

theorem refreshStep3_age_bound (now : Int) (updates : List (Option CFContest)) :
    ∀ s : CogState,
      (∀ x, some x ∈ updates → now - x.startTimeSeconds.getD 0 ≤ SEVEN_DAYS) →
      (∀ c ∈ s.ongoing, now - c.startTimeSeconds.getD 0 ≤ SEVEN_DAYS) →
      ∀ c ∈ (refreshStep3 updates s).ongoing,
        now - c.startTimeSeconds.getD 0 ≤ SEVEN_DAYS := by
  induction updates with
  | nil => intro s _ hs; exact hs
  | cons u rest ih =>
    intro s hupd hs
    apply ih (applyUpdate s u)
    · intro x hx
      exact hupd x (List.mem_cons_of_mem _ hx)
    · intro c hc
      cases u with
      | none => exact hs c hc
      | some x =>
        by_cases hf : x.phase == ContestPhase.FINISHED
        · simp only [applyUpdate, hf, if_true] at hc
          exact hs c (List.mem_filter.mp hc).1
        · have hrw : (applyUpdate s (some x)).ongoing = replaceFirstById s.ongoing x := by
            simp [applyUpdate, hf]
          rw [hrw] at hc
          rcases mem_replaceFirstById hc with hin | heq
          · exact hs c hin
          · rw [heq]
            exact hupd x (List.mem_cons_self _ _)

/-- C1 (amended): after an Ongoing Refresher tick whose per-contest fetches
preserve start times, every contest left in `ongoing` satisfies
now − start ≤ 7 days.  The Poller tick guarantees the strict bound only for
contests it classifies ongoing with phase `PENDING_SYSTEM_TEST`/`SYSTEM_TEST`;
a `CODING`-phase contest is classified ongoing regardless of its age, so a
Poller tick can leave a contest older than 7 days in `ongoing`. -/
theorem ongoing_age_bound (fetch : Int → Option CFContest) (now : Int) (s : CogState)
    (contests : List CFContest) (c : CFContest) :
    ((∀ d ∈ (refreshStep1 now s).ongoing, ∀ u, fetch d.id = some u →
        u.startTimeSeconds = d.startTimeSeconds) →
      ∀ e ∈ (refresh_ongoing_contests fetch now s).ongoing,
        now - e.startTimeSeconds.getD 0 ≤ SEVEN_DAYS)
    ∧ (c ∈ pollerOngoing contests now → c.phase ≠ .CODING →
        now - c.startTimeSeconds.getD 0 < SEVEN_DAYS) := by
  constructor
  · intro hpres e he
    unfold refresh_ongoing_contests at he
    refine refreshStep3_age_bound now _ (refreshStep1 now s) ?_
      (refreshStep1_age_bound now s) e he
    intro x hx
    rw [List.mem_map] at hx
    obtain ⟨d, hd, hdx⟩ := hx
    have hstart := hpres d hd x hdx
    have hbound := refreshStep1_age_bound now s d hd
    rw [hstart]
    exact hbound
  · intro hin hnc
    obtain ⟨hmem, hp⟩ := List.mem_filter.mp hin
    simp only [Bool.or_eq_true, Bool.and_eq_true, beq_iff_eq, decide_eq_true_eq] at hp
    rcases hp with hcod | ⟨_, hlt⟩
    · exact absurd hcod hnc
    · exact hlt

/-- Witness for C1: a fresh coding contest survives a refresher tick whose
fetches all report "not found", within the 7-day bound. -/
theorem ongoing_age_bound_witness :
    (0 : Int) - (mkContest 1 .CODING (some 0)).startTimeSeconds.getD 0 ≤ SEVEN_DAYS :=
  (ongoing_age_bound (fun _ => none) 0 ⟨[], [mkContest 1 .CODING (some 0)], [], []⟩
      [] (mkContest 1 .CODING (some 0))).1
    (fun _ _ _ hu => Option.noConfusion hu) (mkContest 1 .CODING (some 0)) (by decide)

/-- C1 counterexample: the Poller classifies a `CODING` contest started 10
days ago as ongoing, leaving a contest older than 7 days in `ongoing`
immediately after its tick. -/
theorem ongoing_age_bound_cex :
    mkContest 1 .CODING (some 0)
        ∈ (update_upcoming_contests [mkContest 1 .CODING (some 0)] 864000 emptyState).ongoing
    ∧ SEVEN_DAYS < 864000 - (mkContest 1 .CODING (some 0)).startTimeSeconds.getD 0 := by
  decide

/-! ## Bucket disjointness (C3) -/

theorem idsOf_sublist {a b : List CFContest} (h : a.Sublist b) :
    (idsOf a).Sublist (idsOf b) := by
  unfold idsOf
  exact h.map (fun c => c.id)

theorem mover_preserves_disjoint (now : Int) (s : CogState)
    (h : DisjointBuckets s) : DisjointBuckets (check_ongoing_contests now s) := by
  obtain ⟨h1, h2⟩ := h
  have eup : (check_ongoing_contests now s).upcoming
      = s.upcoming.filter (fun c => !(hasId (s.upcoming.filter
          (fun c => c.startTimeSeconds.getD 0 ≤ now)) c.id)) := rfl
  have eon : (check_ongoing_contests now s).ongoing
      = s.ongoing ++ (s.upcoming.filter (fun c => c.startTimeSeconds.getD 0 ≤ now)).filter
          (fun c => !(hasId s.ongoing c.id)) := rfl
  have efp : (check_ongoing_contests now s).finishedPending = s.finishedPending := rfl
  constructor
  · intro i hi
    rw [eup] at hi
    have hiup : i ∈ idsOf s.upcoming := (idsOf_sublist_of_filter _ _).mem hi
    obtain ⟨c, hc, rfl⟩ := mem_idsOf.mp hi
    obtain ⟨hcmem, hcskip⟩ := List.mem_filter.mp hc
    rw [Bool.not_eq_eq_eq_not, Bool.not_true, hasId_eq_false] at hcskip
    constructor
    · intro hin
      rw [eon, idsOf_append, List.mem_append] at hin
      rcases hin with hin | hin
      · exact (h1 _ hiup).1 hin
      · exact hcskip ((idsOf_sublist_of_filter _ _).mem hin)
    · rw [efp]
      exact (h1 _ hiup).2
  · intro i hi
    rw [eon, idsOf_append, List.mem_append] at hi
    rw [efp]
    rcases hi with hin | hin
    · exact h2 _ hin
    · have : i ∈ idsOf s.upcoming :=
        ((idsOf_sublist_of_filter _ _).trans (idsOf_sublist_of_filter _ _)).mem hin
      exact (h1 _ this).2

theorem poller_preserves_disjoint (contests : List CFContest) (now : Int) (s : CogState)
    (h : DisjointBuckets s)
    (hup : ∀ i ∈ idsOf (pollerUpcoming contests now),
        i ∉ idsOf s.ongoing ∧ i ∉ idsOf s.finishedPending
          ∧ i ∉ idsOf (pollerOngoing contests now))
    (hon : ∀ i ∈ idsOf (pollerOngoing contests now), i ∉ idsOf s.finishedPending) :
    DisjointBuckets (update_upcoming_contests contests now s) := by
  obtain ⟨h1, h2⟩ := h
  have eup : (update_upcoming_contests contests now s).upcoming
      = pollerUpcoming contests now := rfl
  have eon : (update_upcoming_contests contests now s).ongoing
      = s.ongoing ++ (pollerOngoing contests now).filter
          (fun i => !(hasId s.ongoing i.id)) := rfl
  have efp : (update_upcoming_contests contests now s).finishedPending
      = s.finishedPending := rfl
  constructor
  · intro i hi
    rw [eup] at hi
    constructor
    · intro hin
      rw [eon, idsOf_append, List.mem_append] at hin
      rcases hin with hin | hin
      · exact (hup i hi).1 hin
      · exact (hup i hi).2.2 ((idsOf_sublist_of_filter _ _).mem hin)
    · rw [efp]
      exact (hup i hi).2.1
  · intro i hi
    rw [eon, idsOf_append, List.mem_append] at hi
    rw [efp]
    rcases hi with hin | hin
    · exact h2 i hin
    · exact hon i ((idsOf_sublist_of_filter _ _).mem hin)

theorem refreshStep1_preserves_disjoint (now : Int) (s : CogState)
    (h : DisjointBuckets s) : DisjointBuckets (refreshStep1 now s) := by
  obtain ⟨h1, h2⟩ := h
  have eon : (refreshStep1 now s).ongoing
      = s.ongoing.filter (fun c => !(hasId (s.ongoing.filter
          (fun c => now - c.startTimeSeconds.getD 0 > SEVEN_DAYS)) c.id)) := rfl
  constructor
  · intro i hi
    refine ⟨?_, (h1 i hi).2⟩
    intro hin
    rw [eon] at hin
    exact (h1 i hi).1 ((idsOf_sublist_of_filter _ _).mem hin)
  · intro i hi
    rw [eon] at hi
    exact h2 i ((idsOf_sublist_of_filter _ _).mem hi)

theorem applyUpdate_fp_ids_cases {s : CogState} {u : Option CFContest} {i : Int}
    (hi : i ∈ idsOf (applyUpdate s u).finishedPending) :
    i ∈ idsOf s.finishedPending
      ∨ ∃ x, u = some x ∧ i = x.id ∧ x.phase = .FINISHED := by
  cases u with
  | none => exact Or.inl hi
  | some x =>
    by_cases hf : x.phase == ContestPhase.FINISHED
    · simp only [applyUpdate, hf, if_true] at hi
      by_cases hp : hasId s.finishedPending x.id
      · rw [if_pos hp] at hi
        exact Or.inl hi
      · rw [if_neg hp, idsOf_append, List.mem_append] at hi
        rcases hi with hi | hi
        · exact Or.inl hi
        · exact Or.inr ⟨x, rfl, by simpa [idsOf] using hi, by simpa using hf⟩
    · left
      simpa [applyUpdate, hf] using hi

theorem applyUpdate_preserves_disjoint (s : CogState) (u : Option CFContest)
    (h : DisjointBuckets s)
    (hxid : ∀ x, u = some x → x.id ∉ idsOf s.upcoming) :
    DisjointBuckets (applyUpdate s u) := by
  obtain ⟨h1, h2⟩ := h
  constructor
  · intro i hi
    rw [applyUpdate_upcoming] at hi
    refine ⟨?_, ?_⟩
    · intro hin
      exact (h1 i hi).1 (applyUpdate_ongoing_ids_subset s u i hin)
    · intro hin
      rcases applyUpdate_fp_ids_cases hin with hold | ⟨x, hux, rfl, _⟩
      · exact (h1 i hi).2 hold
      · exact hxid x hux hi
  · intro i hi hfp
    rcases applyUpdate_fp_ids_cases hfp with hold | ⟨x, hux, rfl, hxfin⟩
    · exact h2 i (applyUpdate_ongoing_ids_subset s u i hi) hold
    · subst hux
      exact applyUpdate_finished_not_ongoing s hxfin hi

theorem refreshStep3_preserves_disjoint (updates : List (Option CFContest)) :
    ∀ s : CogState, DisjointBuckets s →
      (∀ x, some x ∈ updates → x.id ∉ idsOf s.upcoming) →
      DisjointBuckets (refreshStep3 updates s) := by
  induction updates with
  | nil => intro s h _; exact h
  | cons u rest ih =>
    intro s h hx
    apply ih (applyUpdate s u)
    · exact applyUpdate_preserves_disjoint s u h
        (fun x hux => hx x (by rw [hux]; exact List.mem_cons_self _ _))
    · intro x hxr
      rw [applyUpdate_upcoming]
      exact hx x (List.mem_cons_of_mem _ hxr)

theorem refresher_preserves_disjoint (fetch : Int → Option CFContest) (now : Int)
    (s : CogState) (h : DisjointBuckets s)
    (hid : ∀ c ∈ (refreshStep1 now s).ongoing, ∀ u, fetch c.id = some u → u.id = c.id) :
    DisjointBuckets (refresh_ongoing_contests fetch now s) := by
  have h1 := refreshStep1_preserves_disjoint now s h
  unfold refresh_ongoing_contests
  apply refreshStep3_preserves_disjoint _ _ h1
  intro x hx
  rw [List.mem_map] at hx
  obtain ⟨d, hd, hdx⟩ := hx
  rw [hid d hd x hdx]
  intro hupmem
  exact (h1.1 d.id hupmem).1 (mem_idsOf.mpr ⟨d, hd, rfl⟩)

theorem watcher_buckets (resp : Int → RatingChangesResponse)
    (userFetch : Except Unit (List CFUser)) (orgs : List (Campus × List String))
    (now : Int) (s : CogState) :
    ((update_campus_leaderboards resp userFetch orgs now s).finishedPending).Sublist
        s.finishedPending
    ∧ (update_campus_leaderboards resp userFetch orgs now s).upcoming = s.upcoming
    ∧ (update_campus_leaderboards resp userFetch orgs now s).ongoing = s.ongoing := by
  unfold update_campus_leaderboards
  by_cases he : (s.finishedPending.filter (fun c => ratingPublished (resp c.id))).isEmpty
  · simp [he]
  · cases userFetch with
    | error e => simp [he]
    | ok users => simp [he, List.filter_sublist]

theorem watcher_preserves_disjoint (resp : Int → RatingChangesResponse)
    (userFetch : Except Unit (List CFUser)) (orgs : List (Campus × List String))
    (now : Int) (s : CogState) (h : DisjointBuckets s) :
    DisjointBuckets (update_campus_leaderboards resp userFetch orgs now s) := by
  obtain ⟨hsub, hupe, hone⟩ := watcher_buckets resp userFetch orgs now s
  obtain ⟨h1, h2⟩ := h
  constructor
  · intro i hi
    rw [hupe] at hi
    exact ⟨fun hin => (h1 i hi).1 (by rwa [hone] at hin),
      fun hin => (h1 i hi).2 ((idsOf_sublist hsub).mem hin)⟩
  · intro i hi
    rw [hone] at hi
    exact fun hin => h2 i hi ((idsOf_sublist hsub).mem hin)

/-- C3 (amended): starting from the empty buckets, which are disjoint, each
tick preserves "every contest id lives in at most one bucket" as follows —
the Lifecycle Mover and the Watcher unconditionally; the Ongoing Refresher
whenever the per-contest fetches return the requested id; the Poller only
under side conditions on the fetched list (no contest it classifies upcoming
may share an id with `ongoing`, `finishedPending`, or its own ongoing
classification, and no contest it classifies ongoing may share an id with
`finishedPending`).  Without the Poller side conditions the invariant fails
(see the counterexample). -/
theorem buckets_disjoint_preservation (now : Int) (s : CogState)
    (contests : List CFContest) (fetch : Int → Option CFContest)
    (resp : Int → RatingChangesResponse) (userFetch : Except Unit (List CFUser))
    (orgs : List (Campus × List String)) :
    DisjointBuckets emptyState
    ∧ (DisjointBuckets s → DisjointBuckets (check_ongoing_contests now s))
    ∧ (DisjointBuckets s →
        (∀ i ∈ idsOf (pollerUpcoming contests now),
          i ∉ idsOf s.ongoing ∧ i ∉ idsOf s.finishedPending
            ∧ i ∉ idsOf (pollerOngoing contests now)) →
        (∀ i ∈ idsOf (pollerOngoing contests now), i ∉ idsOf s.finishedPending) →
        DisjointBuckets (update_upcoming_contests contests now s))
    ∧ (DisjointBuckets s →
        (∀ c ∈ (refreshStep1 now s).ongoing, ∀ u, fetch c.id = some u → u.id = c.id) →
        DisjointBuckets (refresh_ongoing_contests fetch now s))
    ∧ (DisjointBuckets s →
        DisjointBuckets (update_campus_leaderboards resp userFetch orgs now s)) :=
  ⟨by constructor <;> simp [emptyState, idsOf],
    mover_preserves_disjoint now s,
    fun h hup hon => poller_preserves_disjoint contests now s h hup hon,
    fun h hid => refresher_preserves_disjoint fetch now s h hid,
    fun h => watcher_preserves_disjoint resp userFetch orgs now s h⟩

/-- Witness for C3: a Mover tick on a concrete disjoint state keeps the
buckets disjoint. -/
theorem buckets_disjoint_preservation_witness :
    DisjointBuckets (check_ongoing_contests 100
      ⟨[mkContest 1 .BEFORE (some 50)], [mkContest 2 .CODING none],
        [mkContest 3 .FINISHED none], []⟩) :=
  (buckets_disjoint_preservation 100
      ⟨[mkContest 1 .BEFORE (some 50)], [mkContest 2 .CODING none],
        [mkContest 3 .FINISHED none], []⟩
      [] (fun _ => none) (fun _ => ⟨none⟩) (Except.ok []) []).2.1 (by decide)

/-- C3 counterexample: from empty buckets, a Poller tick reports contest 1 as
`BEFORE` starting at 100, the Mover moves it to `ongoing` at time 100, and a
second Poller tick re-reports the same id as `BEFORE` starting at 200 — the id
is now in both `upcoming` and `ongoing`. -/
theorem buckets_disjoint_cex :
    ¬ DisjointBuckets (runTicks
      [.poller [mkContest 1 .BEFORE (some 100)] 0,
        .mover 100,
        .poller [mkContest 1 .BEFORE (some 200)] 150]) := by
  decide

/-! ## The Leaderboard Builder (C7) -/

/-- The users a rebuild assigns to campus `c`, in input order: retained by
the activity cutoff and matched to `c` as their first matching campus. -/
def assignedTo (orgs : List (Campus × List String)) (cutoff : Int) (users : List CFUser)
    (c : Campus) : List CFUser :=
  users.filter (fun u =>
    !(u.lastOnlineTimeSeconds < cutoff) && (firstMatchCampus orgs u == some c))

theorem lookupCampus_nil (c : Campus) : lookupCampus [] c = [] := rfl

theorem lookupCampus_addToCampus (m : List (Campus × List CFUser)) (camp c : Campus)
    (u : CFUser) :
    lookupCampus (addToCampus m camp u) c
      = if camp = c then lookupCampus m c ++ [u] else lookupCampus m c := by
  induction m with
  | nil =>
    by_cases h : camp = c
    · simp [addToCampus, lookupCampus, h]
    · simp [addToCampus, lookupCampus, h]
  | cons p rest ih =>
    obtain ⟨pc, pl⟩ := p
    by_cases hpc : pc = camp
    · subst hpc
      by_cases hcc : pc = c
      · subst hcc
        simp [addToCampus, lookupCampus]
      · simp [addToCampus, lookupCampus, hcc]
    · by_cases hcc : pc = c
      · subst hcc
        have hcamp : ¬(camp = pc) := fun h => hpc h.symm
        simp [addToCampus, lookupCampus, hpc, hcamp]
      · simp only [addToCampus, if_neg hpc]
        have e1 : lookupCampus ((pc, pl) :: addToCampus rest camp u) c
            = lookupCampus (addToCampus rest camp u) c := by
          simp [lookupCampus, List.find?_cons, hcc]
        have e2 : lookupCampus ((pc, pl) :: rest) c = lookupCampus rest c := by
          simp [lookupCampus, List.find?_cons, hcc]
        rw [e1, e2, ih]

theorem lookupCampus_assignFold (orgs : List (Campus × List String)) (cutoff : Int)
    (users : List CFUser) :
    ∀ (m : List (Campus × List CFUser)) (c : Campus),
      lookupCampus (users.foldl (fun m u =>
          if u.lastOnlineTimeSeconds < cutoff then m
          else match firstMatchCampus orgs u with
            | none => m
            | some camp => addToCampus m camp u) m) c
        = lookupCampus m c ++ assignedTo orgs cutoff users c := by
  induction users with
  | nil => intro m c; simp [assignedTo]
  | cons u rest ih =>
    intro m c
    by_cases hcut : u.lastOnlineTimeSeconds < cutoff
    · rw [List.foldl_cons, if_pos hcut, ih]
      have : assignedTo orgs cutoff (u :: rest) c = assignedTo orgs cutoff rest c := by
        simp [assignedTo, List.filter_cons, hcut]
      rw [this]
    · cases hm : firstMatchCampus orgs u with
      | none =>
        rw [List.foldl_cons, if_neg hcut]
        rw [show (match firstMatchCampus orgs u with
            | none => m
            | some camp => addToCampus m camp u) = m by rw [hm]]
        rw [ih]
        have : assignedTo orgs cutoff (u :: rest) c = assignedTo orgs cutoff rest c := by
          simp [assignedTo, List.filter_cons, hcut, hm]
        rw [this]
      | some camp =>
        rw [List.foldl_cons, if_neg hcut]
        rw [show (match firstMatchCampus orgs u with
            | none => m
            | some camp => addToCampus m camp u) = addToCampus m camp u by rw [hm]]
        rw [ih, lookupCampus_addToCampus]
        by_cases hcc : camp = c
        · subst hcc
          have : assignedTo orgs cutoff (u :: rest) camp
              = u :: assignedTo orgs cutoff rest camp := by
            simp [assignedTo, List.filter_cons, hcut, hm]
          rw [this, if_pos rfl, List.append_assoc, List.singleton_append]
        · have : assignedTo orgs cutoff (u :: rest) c = assignedTo orgs cutoff rest c := by
            simp [assignedTo, List.filter_cons, hcut, hm, hcc]
          rw [this, if_neg hcc]

theorem lookupCampus_map_sort (m : List (Campus × List CFUser)) (c : Campus) :
    lookupCampus (m.map (fun p => (p.1, sortRatingDesc p.2))) c
      = sortRatingDesc (lookupCampus m c) := by
  induction m with
  | nil => simp [lookupCampus, sortRatingDesc]
  | cons p rest ih =>
    by_cases h : p.1 = c
    · simp [lookupCampus, List.find?_cons, h]
    · have e1 : lookupCampus ((p.1, sortRatingDesc p.2) :: rest.map
          (fun p => (p.1, sortRatingDesc p.2))) c
          = lookupCampus (rest.map (fun p => (p.1, sortRatingDesc p.2))) c := by
        simp [lookupCampus, List.find?_cons, h]
      have e2 : lookupCampus (p :: rest) c = lookupCampus rest c := by
        simp [lookupCampus, List.find?_cons, h]
      rw [List.map_cons, e1, e2, ih]

theorem lookupCampus_build (orgs : List (Campus × List String)) (cutoff : Int)
    (users : List CFUser) (c : Campus) :
    lookupCampus (buildLeaderboards orgs cutoff users) c
      = sortRatingDesc (assignedTo orgs cutoff users c) := by
  unfold buildLeaderboards
  rw [lookupCampus_map_sort]
  unfold assignUsers
  rw [lookupCampus_assignFold, lookupCampus_nil, List.nil_append]

theorem perm_insertRatingDesc (u : CFUser) (l : List CFUser) :
    (insertRatingDesc u l).Perm (u :: l) := by
  induction l with
  | nil => exact List.Perm.refl _
  | cons v rest ih =>
    by_cases h : v.rating ≤ u.rating
    · rw [insertRatingDesc, if_pos h]
    · rw [insertRatingDesc, if_neg h]
      exact (ih.cons v).trans (List.Perm.swap u v rest)

theorem perm_sortRatingDesc (l : List CFUser) : (sortRatingDesc l).Perm l := by
  induction l with
  | nil => exact List.Perm.refl _
  | cons u rest ih =>
    exact (perm_insertRatingDesc u (sortRatingDesc rest)).trans (ih.cons u)

theorem insertRatingDesc_sorted {l : List CFUser} {u : CFUser}
    (h : l.Sorted (fun a b => b.rating ≤ a.rating)) :
    (insertRatingDesc u l).Sorted (fun a b => b.rating ≤ a.rating) := by
  induction l with
  | nil => simp [insertRatingDesc]
  | cons v rest ih =>
    rw [List.sorted_cons] at h
    obtain ⟨hv, hrest⟩ := h
    by_cases hle : v.rating ≤ u.rating
    · rw [insertRatingDesc, if_pos hle]
      rw [List.sorted_cons]
      refine ⟨?_, List.sorted_cons.mpr ⟨hv, hrest⟩⟩
      intro b hb
      rcases List.mem_cons.mp hb with rfl | hb
      · exact hle
      · exact le_trans (hv b hb) hle
    · rw [insertRatingDesc, if_neg hle]
      rw [List.sorted_cons]
      refine ⟨?_, ih hrest⟩
      intro b hb
      have hb2 : b ∈ u :: rest := (perm_insertRatingDesc u rest).mem_iff.mp hb
      rcases List.mem_cons.mp hb2 with rfl | hb3
      · exact le_of_lt (lt_of_not_le hle)
      · exact hv b hb3

theorem sortRatingDesc_sorted (l : List CFUser) :
    (sortRatingDesc l).Sorted (fun a b => b.rating ≤ a.rating) := by
  induction l with
  | nil => simp [sortRatingDesc]
  | cons u rest ih => exact insertRatingDesc_sorted ih

theorem insertRatingDesc_filter (u : CFUser) (l : List CFUser) (r : Int) :
    (insertRatingDesc u l).filter (fun v => v.rating == r)
      = (u :: l).filter (fun v => v.rating == r) := by
  induction l with
  | nil => rfl
  | cons v rest ih =>
    by_cases h : v.rating ≤ u.rating
    · rw [insertRatingDesc, if_pos h]
    · rw [insertRatingDesc, if_neg h]
      by_cases hv : v.rating = r
      · have hur : ¬(u.rating = r) := by
          intro hu
          exact h (by rw [hu, hv])
        rw [List.filter_cons, List.filter_cons, List.filter_cons]
        simp only [hv, hur, beq_iff_eq, if_true, if_false, decide_eq_true_eq]
        rw [ih, List.filter_cons]
        simp [hur]
      · rw [List.filter_cons]
        simp only [beq_iff_eq, hv, decide_eq_true_eq, if_false]
        rw [ih, List.filter_cons, List.filter_cons, List.filter_cons]
        simp [hv]

theorem sortRatingDesc_stable (l : List CFUser) (r : Int) :
    (sortRatingDesc l).filter (fun v => v.rating == r)
      = l.filter (fun v => v.rating == r) := by
  induction l with
  | nil => rfl
  | cons u rest ih =>
    rw [show sortRatingDesc (u :: rest) = insertRatingDesc u (sortRatingDesc rest) from rfl]
    rw [insertRatingDesc_filter, List.filter_cons, List.filter_cons, ih]

theorem addToCampus_entries {P : CFUser → Campus → Prop} (camp : Campus) (u : CFUser)
    (hu : P u camp) :
    ∀ m : List (Campus × List CFUser), (∀ p ∈ m, ∀ v ∈ p.2, P v p.1) →
      ∀ p ∈ addToCampus m camp u, ∀ v ∈ p.2, P v p.1 := by
  intro m
  induction m with
  | nil =>
    intro _ p hp v hv
    rw [show addToCampus [] camp u = [(camp, [u])] from rfl, List.mem_singleton] at hp
    subst hp
    rw [List.mem_singleton] at hv
    subst hv
    exact hu
  | cons q rest ih =>
    obtain ⟨qc, ql⟩ := q
    intro hm p hp v hv
    by_cases h : qc = camp
    · subst h
      rw [show addToCampus ((qc, ql) :: rest) qc u = (qc, ql ++ [u]) :: rest by
        simp [addToCampus]] at hp
      rcases List.mem_cons.mp hp with rfl | hp2
      · rcases List.mem_append.mp hv with hv1 | hv2
        · exact hm (qc, ql) (List.mem_cons_self _ _) v hv1
        · rw [List.mem_singleton.mp hv2]
          exact hu
      · exact hm p (List.mem_cons_of_mem _ hp2) v hv
    · rw [show addToCampus ((qc, ql) :: rest) camp u = (qc, ql) :: addToCampus rest camp u by
        simp [addToCampus, h]] at hp
      rcases List.mem_cons.mp hp with rfl | hp2
      · exact hm (qc, ql) (List.mem_cons_self _ _) v hv
      · exact ih (fun p2 hp3 => hm p2 (List.mem_cons_of_mem _ hp3)) p hp2 v hv

theorem assignFold_entries (orgs : List (Campus × List String)) (cutoff : Int)
    (users : List CFUser) :
    ∀ m : List (Campus × List CFUser),
      (∀ p ∈ m, ∀ v ∈ p.2, ¬(v.lastOnlineTimeSeconds < cutoff)
          ∧ firstMatchCampus orgs v = some p.1) →
      ∀ p ∈ users.foldl (fun m u =>
          if u.lastOnlineTimeSeconds < cutoff then m
          else match firstMatchCampus orgs u with
            | none => m
            | some camp => addToCampus m camp u) m,
        ∀ v ∈ p.2, ¬(v.lastOnlineTimeSeconds < cutoff)
          ∧ firstMatchCampus orgs v = some p.1 := by
  induction users with
  | nil => intro m hm; exact hm
  | cons u rest ih =>
    intro m hm
    rw [List.foldl_cons]
    by_cases hcut : u.lastOnlineTimeSeconds < cutoff
    · rw [if_pos hcut]
      exact ih m hm
    · rw [if_neg hcut]
      cases hmatch : firstMatchCampus orgs u with
      | none =>
        simp only [hmatch]
        exact ih m hm
      | some camp =>
        simp only [hmatch]
        exact ih (addToCampus m camp u)
          (@addToCampus_entries (fun v c => ¬(v.lastOnlineTimeSeconds < cutoff)
              ∧ firstMatchCampus orgs v = some c) camp u ⟨hcut, hmatch⟩ m hm)

theorem build_entries (orgs : List (Campus × List String)) (cutoff : Int)
    (users : List CFUser) :
    ∀ p ∈ buildLeaderboards orgs cutoff users, ∀ v ∈ p.2,
      ¬(v.lastOnlineTimeSeconds < cutoff) ∧ firstMatchCampus orgs v = some p.1 := by
  intro p hp v hv
  unfold buildLeaderboards at hp
  rw [List.mem_map] at hp
  obtain ⟨q, hq, rfl⟩ := hp
  have hv2 : v ∈ q.2 := (perm_sortRatingDesc q.2).mem_iff.mp hv
  exact assignFold_entries orgs cutoff users []
    (by intro p2 hp2; simp at hp2) q hq v hv2

/-- C7: the leaderboard rebuild yields, for every campus, exactly the stable
rating-descending sort of the users retained by the 180-day activity cutoff
and assigned to that campus as their first case-insensitive organization
match; users last online strictly before the cutoff appear in no leaderboard
even when their organization matches; every entry of a campus list was
assigned to that campus first-match-wins; each campus list is sorted by
rating descending, and the sort is stable — equal-rated users keep their
input order. -/
theorem leaderboard_rebuild (orgs : List (Campus × List String)) (now : Int)
    (users : List CFUser) (u : CFUser) (p : Campus × List CFUser)
    (l : List CFUser) (r : Int) :
    (∀ c, lookupCampus (refreshCampusLeaderboards orgs now users) c
        = sortRatingDesc (assignedTo orgs (now - ONE_EIGHTY_DAYS) users c))
    ∧ (u.lastOnlineTimeSeconds < now - ONE_EIGHTY_DAYS →
        p ∈ refreshCampusLeaderboards orgs now users → u ∉ p.2)
    ∧ (p ∈ refreshCampusLeaderboards orgs now users →
        p.2.Sorted (fun a b => b.rating ≤ a.rating)
          ∧ ∀ v ∈ p.2, firstMatchCampus orgs v = some p.1)
    ∧ (sortRatingDesc l).filter (fun v => v.rating == r)
        = l.filter (fun v => v.rating == r) := by
  refine ⟨?_, ?_, ?_, sortRatingDesc_stable l r⟩
  · intro c
    exact lookupCampus_build orgs (now - ONE_EIGHTY_DAYS) users c
  · intro hstale hp hu
    exact (build_entries orgs (now - ONE_EIGHTY_DAYS) users p hp u hu).1 hstale
  · intro hp
    constructor
    · have hp2 : p ∈ buildLeaderboards orgs (now - ONE_EIGHTY_DAYS) users := hp
      unfold buildLeaderboards at hp2
      rw [List.mem_map] at hp2
      obtain ⟨q, _, rfl⟩ := hp2
      exact sortRatingDesc_sorted q.2
    · intro v hv
      exact (build_entries orgs (now - ONE_EIGHTY_DAYS) users p hp v hv).2

/-- Witness for C7: the spec's scenario — one user whose organization matches
campus A but whose last-online time is 200 days old — instantiated through
the rebuild equation. -/
theorem leaderboard_rebuild_witness :
    lookupCampus (refreshCampusLeaderboards [("A", ["foo univ"])] 20000000
        [mkUser "u1" 1500 (20000000 - 200 * 24 * 3600) (some "Foo Univ")]) "A"
      = sortRatingDesc (assignedTo [("A", ["foo univ"])] (20000000 - ONE_EIGHTY_DAYS)
          [mkUser "u1" 1500 (20000000 - 200 * 24 * 3600) (some "Foo Univ")] "A") :=
  (leaderboard_rebuild [("A", ["foo univ"])] 20000000
      [mkUser "u1" 1500 (20000000 - 200 * 24 * 3600) (some "Foo Univ")]
      (mkUser "u1" 1500 (20000000 - 200 * 24 * 3600) (some "Foo Univ"))
      ("A", []) [] 0).1 "A"
